import Mathlib

/-!
Verification of the text-measurement, segmentation, splitting, placement and
page-mapping core of SpectrumMark (src/SpectrumMark.py).

Characters are modelled as Unicode code points (`Nat`), text lines as
`List Nat`, and the floating-point widths of the source as exact rationals
(`ℚ`).  A font metrics provider (`fitz.Font` in the source) is an abstract
function from a text and a font size to a width.
-/

namespace SpectrumMark

/-- A font metrics provider: `text_length text fontsize` models
`fitz.Font.text_length(text, fontsize=font_size)`. -/
structure FontMetrics where
  text_length : List Nat → ℚ → ℚ

/-- Embeds `is_chinese` (src/SpectrumMark.py lines 10-14): a character is
"Chinese"/WIDE iff its code point lies in `[0x0800, 0xFFFF]`. -/
def is_chinese (ch : Nat) : Bool :=
  decide (0x0800 ≤ ch ∧ ch ≤ 0xFFFF)

/-- Helper for `segment_text`: the state of the loop in
src/SpectrumMark.py lines 24-33 (current segment, its class, remaining
characters). -/
def segment_aux : List Nat → Bool → List Nat → List (List Nat × Bool)
  | current_seg, current_is_ch, [] => [(current_seg, current_is_ch)]
  | current_seg, current_is_ch, ch :: rest =>
    if is_chinese ch = current_is_ch then
      segment_aux (current_seg ++ [ch]) current_is_ch rest
    else
      (current_seg, current_is_ch) :: segment_aux [ch] (is_chinese ch) rest

/-- Embeds `segment_text` (src/SpectrumMark.py lines 17-34): partition a line
into maximal runs of one script class, returned as `(segment, is_chinese)`
pairs. -/
def segment_text : List Nat → List (List Nat × Bool)
  | [] => []
  | ch :: rest => segment_aux [ch] (is_chinese ch) rest

/-- Embeds `compute_line_width` (src/SpectrumMark.py lines 37-51): WIDE runs
are measured as one whole-string call to the wide font; NARROW runs are
measured character by character against the narrow font, adding
`char_adjust` per character. -/
def compute_line_width (text_line : List Nat) (chinese_font latin_font : FontMetrics)
    (font_size char_adjust : ℚ) : ℚ :=
  (segment_text text_line).foldl
    (fun total p =>
      if p.2 then total + chinese_font.text_length p.1 font_size
      else p.1.foldl
        (fun t letter => t + (latin_font.text_length [letter] font_size + char_adjust)) total)
    0

/-- The per-character width used by the scanning loop of `split_text_line`
(src/SpectrumMark.py lines 62-65): WIDE characters are measured individually
against the wide font, NARROW characters against the narrow font plus
`char_adjust`. -/
def char_width (chinese_font latin_font : FontMetrics) (font_size char_adjust : ℚ)
    (ch : Nat) : ℚ :=
  if is_chinese ch then chinese_font.text_length [ch] font_size
  else latin_font.text_length [ch] font_size + char_adjust

/-- The scanning loop of `split_text_line` (src/SpectrumMark.py lines 59-70):
starting from accumulated width `cum_w`, commit characters left to right
while the running sum stays within `allowed_width`; the result is the number
of committed characters (the `split_index` before the forced minimum). -/
def split_scan (chinese_font latin_font : FontMetrics)
    (font_size char_adjust allowed_width : ℚ) : List Nat → ℚ → Nat
  | [], _ => 0
  | ch :: rest, cum_w =>
    if cum_w + char_width chinese_font latin_font font_size char_adjust ch ≤ allowed_width then
      split_scan chinese_font latin_font font_size char_adjust allowed_width rest
        (cum_w + char_width chinese_font latin_font font_size char_adjust ch) + 1
    else 0

/-- The final split index of `split_text_line` (src/SpectrumMark.py
lines 71-72): if the scan committed no character, the index is forced to 1. -/
def split_index_of (text_line : List Nat) (allowed_width : ℚ)
    (chinese_font latin_font : FontMetrics) (font_size char_adjust : ℚ) : Nat :=
  if split_scan chinese_font latin_font font_size char_adjust allowed_width text_line 0 = 0 then 1
  else split_scan chinese_font latin_font font_size char_adjust allowed_width text_line 0

/-- Embeds `split_text_line` (src/SpectrumMark.py lines 54-75): slice the
line at the (possibly forced) split index into `(first_part, second_part)`. -/
def split_text_line (text_line : List Nat) (allowed_width : ℚ)
    (chinese_font latin_font : FontMetrics) (font_size char_adjust : ℚ) :
    List Nat × List Nat :=
  (text_line.take (split_index_of text_line allowed_width chinese_font latin_font
      font_size char_adjust),
   text_line.drop (split_index_of text_line allowed_width chinese_font latin_font
      font_size char_adjust))

/-- Embeds the coordinate/size parsing of `perform_insertion`
(src/SpectrumMark.py lines 89-95).  An argument is `none` when the source's
`float(...)` raises `ValueError`; the result is `none` exactly when the
source logs an error and returns, aborting the run. -/
def parse_coordinates (insert_x insert_y font_size : Option ℚ) : Option (ℚ × ℚ × ℚ) :=
  match insert_x, insert_y, font_size with
  | some x, some y, some s => some (x, y, s)
  | _, _, _ => none

/-- Embeds the color handling of `perform_insertion` (src/SpectrumMark.py
lines 102-113).  The argument is the list of parsed components (`none` when
a component fails to parse as a number); any list of length other than
three, like a parse failure, falls to the default black. -/
def normalize_color : Option (List ℚ) → ℚ × ℚ × ℚ
  | some [r, g, b] =>
    if 1 < r ∨ 1 < g ∨ 1 < b then (r / 255, g / 255, b / 255) else (r, g, b)
  | _ => (0, 0, 0)

/-- Embeds the per-line row planning of `perform_insertion`
(src/SpectrumMark.py lines 148-179): one row at `page_height - insert_y`
when the measured width fits the allowed width, else the split prefix two
units above a font height and the suffix at the base position. -/
def plan_rows (text_line : List Nat) (chinese_font latin_font : FontMetrics)
    (font_size char_adjust insert_x insert_y page_width page_height : ℚ) :
    List (List Nat × ℚ) :=
  let adjusted_y := page_height - insert_y
  let line_width := compute_line_width text_line chinese_font latin_font font_size char_adjust
  let allowed_width := page_width - 2 * insert_x
  if allowed_width < line_width then
    [((split_text_line text_line allowed_width chinese_font latin_font
        font_size char_adjust).1, adjusted_y - font_size - 2),
     ((split_text_line text_line allowed_width chinese_font latin_font
        font_size char_adjust).2, adjusted_y)]
  else
    [(text_line, adjusted_y)]

/-- Embeds the line-to-page pairing and bookmark construction of
`perform_insertion` (src/SpectrumMark.py lines 143-148 and 275-278):
`count = min(len(lines), page_count)` iterations, line `i` on 0-based page
`i`, bookmark entry `[1, lines[i], i + 1]`. -/
def map_pages (lines : List (List Nat)) (page_count : Nat) :
    List (List Nat × Nat) × List (Nat × List Nat × Nat) :=
  ((List.range (min lines.length page_count)).map fun i => (lines.getD i [], i),
   (List.range (min lines.length page_count)).map fun i => (1, lines.getD i [], i + 1))

/-- Specification-side abbreviation: the width `compute_line_width`
contributes for one run. -/
def seg_width (chinese_font latin_font : FontMetrics) (font_size char_adjust : ℚ)
    (p : List Nat × Bool) : ℚ :=
  if p.2 then chinese_font.text_length p.1 font_size
  else (p.1.map fun letter => latin_font.text_length [letter] font_size + char_adjust).sum

/-- Specification-side abbreviation: the accumulated per-character width of
the first `j` characters of a line, with each character priced exactly as in
the scanning loop of `split_text_line`. -/
def cum_width (chinese_font latin_font : FontMetrics) (font_size char_adjust : ℚ)
    (line : List Nat) (j : Nat) : ℚ :=
  ((line.take j).map (char_width chinese_font latin_font font_size char_adjust)).sum

/-- A metrics provider returning the same width for every text, used as a
concrete test instance. -/
def constantFont (c : ℚ) : FontMetrics :=
  ⟨fun _ _ => c⟩

/-- A metrics provider assigning width `c` to every character and measuring
a text additively, used as a concrete test instance. -/
def perCharFont (c : ℚ) : FontMetrics :=
  ⟨fun s _ => c * (s.length : ℚ)⟩

/-- A non-additive metrics provider: the single character `0x4E16` measures
wider alone than inside a longer text, used as a concrete test instance. -/
def spikyFont : FontMetrics :=
  ⟨fun s _ => if s = [0x4E16] then 100 else 5⟩

/-! ### Segmentation lemmas -/

lemma segment_aux_join : ∀ (rest current_seg : List Nat) (b : Bool),
    ((segment_aux current_seg b rest).map Prod.fst).flatten = current_seg ++ rest := by
  intro rest
  induction rest with
  | nil => intro current_seg b; simp [segment_aux]
  | cons ch rest ih =>
    intro current_seg b
    by_cases h : is_chinese ch = b
    · simp [segment_aux, h, ih]
    · simp [segment_aux, h, ih]

lemma segment_aux_ne_nil : ∀ (rest current_seg : List Nat) (b : Bool),
    current_seg ≠ [] → ∀ p ∈ segment_aux current_seg b rest, p.1 ≠ [] := by
  intro rest
  induction rest with
  | nil =>
    intro current_seg b hcs p hp
    simp [segment_aux] at hp
    simpa [hp] using hcs
  | cons ch rest ih =>
    intro current_seg b hcs p hp
    by_cases h : is_chinese ch = b
    · rw [segment_aux, if_pos h] at hp
      exact ih _ _ (by simp) p hp
    · rw [segment_aux, if_neg h] at hp
      rcases List.mem_cons.mp hp with hp | hp
      · simpa [hp] using hcs
      · exact ih _ _ (by simp) p hp

lemma segment_aux_classes : ∀ (rest current_seg : List Nat) (b : Bool),
    (∀ c ∈ current_seg, is_chinese c = b) →
    ∀ p ∈ segment_aux current_seg b rest, ∀ c ∈ p.1, is_chinese c = p.2 := by
  intro rest
  induction rest with
  | nil =>
    intro current_seg b hcs p hp
    simp [segment_aux] at hp
    intro c hc
    rw [hp]
    exact hcs c (by simpa [hp] using hc)
  | cons ch rest ih =>
    intro current_seg b hcs p hp
    by_cases h : is_chinese ch = b
    · rw [segment_aux, if_pos h] at hp
      refine ih _ _ ?_ p hp
      intro c hc
      rcases List.mem_append.mp hc with hc | hc
      · exact hcs c hc
      · simpa using List.mem_singleton.mp hc ▸ h
    · rw [segment_aux, if_neg h] at hp
      rcases List.mem_cons.mp hp with hp | hp
      · intro c hc
        rw [hp]
        exact hcs c (by simpa [hp] using hc)
      · exact ih _ _ (by simp) p hp

lemma segment_aux_head_snd : ∀ (rest current_seg : List Nat) (b : Bool)
    (p : List Nat × Bool), (segment_aux current_seg b rest).head? = some p → p.2 = b := by
  intro rest
  induction rest with
  | nil =>
    intro current_seg b p hp
    simp only [segment_aux, List.head?_cons] at hp
    injection hp with hp
    subst hp
    rfl
  | cons ch rest ih =>
    intro current_seg b p hp
    by_cases h : is_chinese ch = b
    · rw [segment_aux, if_pos h] at hp
      exact ih _ _ p hp
    · rw [segment_aux, if_neg h] at hp
      simp only [List.head?_cons] at hp
      injection hp with hp
      subst hp
      rfl

lemma segment_aux_chain : ∀ (rest current_seg : List Nat) (b : Bool),
    List.Chain' (fun p q : List Nat × Bool => p.2 ≠ q.2) (segment_aux current_seg b rest) := by
  intro rest
  induction rest with
  | nil => intro current_seg b; simp [segment_aux]
  | cons ch rest ih =>
    intro current_seg b
    by_cases h : is_chinese ch = b
    · rw [segment_aux, if_pos h]
      exact ih _ _
    · rw [segment_aux, if_neg h]
      refine List.chain'_cons'.mpr ⟨?_, ih _ _⟩
      intro q hq
      have hq2 : q.2 = is_chinese ch := segment_aux_head_snd _ _ _ q hq
      simp [hq2]
      exact fun hbq => h hbq.symm

lemma segment_join (line : List Nat) :
    ((segment_text line).map Prod.fst).flatten = line := by
  cases line with
  | nil => rfl
  | cons ch rest => simpa [segment_text] using segment_aux_join rest [ch] (is_chinese ch)

lemma segment_ne_nil (line : List Nat) : ∀ p ∈ segment_text line, p.1 ≠ [] := by
  cases line with
  | nil => simp [segment_text]
  | cons ch rest => exact segment_aux_ne_nil rest [ch] (is_chinese ch) (by simp)

lemma segment_classes (line : List Nat) :
    ∀ p ∈ segment_text line, ∀ c ∈ p.1, is_chinese c = p.2 := by
  cases line with
  | nil => simp [segment_text]
  | cons ch rest => exact segment_aux_classes rest [ch] (is_chinese ch) (by simp)

lemma segment_chain (line : List Nat) :
    List.Chain' (fun p q : List Nat × Bool => p.2 ≠ q.2) (segment_text line) := by
  cases line with
  | nil => simp [segment_text]
  | cons ch rest => exact segment_aux_chain rest [ch] (is_chinese ch)

/-! ### Claim theorems: segmentation and the empty-line split -/

/-- Claim C2: `segment_text` is a lossless partition: concatenating the run
contents in order reproduces the input line, every run is non-empty, every
character of a run has the run's script class, adjacent runs differ in
class, and the empty line yields the empty sequence of runs. -/
theorem segment_partition_invariants (line : List Nat) :
    ((segment_text line).map Prod.fst).flatten = line ∧
    (∀ p ∈ segment_text line, p.1 ≠ []) ∧
    (∀ p ∈ segment_text line, ∀ c ∈ p.1, is_chinese c = p.2) ∧
    List.Chain' (fun p q : List Nat × Bool => p.2 ≠ q.2) (segment_text line) ∧
    segment_text [] = [] :=
  ⟨segment_join line, segment_ne_nil line, segment_classes line, segment_chain line, rfl⟩

/-- Witness for C2 at the concrete line `"H世"`. -/
theorem segment_partition_invariants_witness :
    ((segment_text [72, 0x4E16]).map Prod.fst).flatten = [72, 0x4E16] :=
  (segment_partition_invariants [72, 0x4E16]).1

/-- Claim C10: `split_text_line` on the empty line is total and returns the
pair of empty strings: the forced split index 1 slices an empty string
without error, and the non-empty-prefix guarantee does not extend to empty
input. -/
theorem split_empty_line_total (allowed_width font_size char_adjust : ℚ)
    (chinese_font latin_font : FontMetrics) :
    split_text_line [] allowed_width chinese_font latin_font font_size char_adjust
      = ([], []) :=
  rfl

/-- Claim C6 (counterexample): a non-numeric X coordinate makes
`perform_insertion` log an error and return — the run is aborted
(`parse_coordinates` yields `none`), no default is substituted. -/
theorem nonnumeric_coordinate_aborts :
    parse_coordinates none (some 8) (some 12) = none :=
  rfl

/-- Claim C6 (amended): a non-numeric anchor X/Y coordinate or font size
aborts the run after an error message — the parse stage yields `none`
exactly when some input is non-numeric, and substitutes no default; numeric
inputs pass through unchanged. -/
theorem parse_coordinates_none_iff :
    ∀ insert_x insert_y font_size : Option ℚ,
      (parse_coordinates insert_x insert_y font_size = none ↔
        insert_x = none ∨ insert_y = none ∨ font_size = none) ∧
      ∀ x y s : ℚ, parse_coordinates (some x) (some y) (some s) = some (x, y, s) := by
  intro insert_x insert_y font_size
  constructor
  · cases insert_x <;> cases insert_y <;> cases font_size <;> simp [parse_coordinates]
  · intro x y s
    rfl

/-- Claim C5: per processed line the planner emits exactly one row, at
`y = page_height - insert_y`, when the measured width is at most the allowed
width `page_width - 2 * insert_x`; otherwise exactly two rows, the split
prefix at `y = base - font_size - 2` and the suffix at `y = base`. -/
theorem plan_rows_one_or_two (line : List Nat) (chinese_font latin_font : FontMetrics)
    (font_size char_adjust insert_x insert_y page_width page_height : ℚ) :
    (compute_line_width line chinese_font latin_font font_size char_adjust ≤
        page_width - 2 * insert_x →
      plan_rows line chinese_font latin_font font_size char_adjust insert_x insert_y
          page_width page_height = [(line, page_height - insert_y)]) ∧
    (page_width - 2 * insert_x <
        compute_line_width line chinese_font latin_font font_size char_adjust →
      plan_rows line chinese_font latin_font font_size char_adjust insert_x insert_y
          page_width page_height =
        [((split_text_line line (page_width - 2 * insert_x) chinese_font latin_font
            font_size char_adjust).1, page_height - insert_y - font_size - 2),
         ((split_text_line line (page_width - 2 * insert_x) chinese_font latin_font
            font_size char_adjust).2, page_height - insert_y)]) := by
  constructor
  · intro h
    simp [plan_rows, not_lt.mpr h]
  · intro h
    simp [plan_rows, h]

/-- Witness for C5: a narrow one-character line of width 2 fits the allowed
width 80 and is planned as a single row at `200 - 8`. -/
theorem plan_rows_one_or_two_witness :
    plan_rows [65] (constantFont 2) (constantFont 2) 12 0 10 8 100 200 =
      [(([65] : List Nat), (200 : ℚ) - 8)] :=
  (plan_rows_one_or_two [65] (constantFont 2) (constantFont 2) 12 0 10 8 100 200).1
    (by norm_num [compute_line_width, segment_text, segment_aux, is_chinese,
      constantFont, List.foldl])

/-! ### Width-estimator lemmas -/

lemma foldl_add_map (f : Nat → ℚ) : ∀ (l : List Nat) (a : ℚ),
    l.foldl (fun t x => t + f x) a = a + (l.map f).sum := by
  intro l
  induction l with
  | nil => intro a; simp
  | cons x xs ih =>
    intro a
    simp only [List.foldl_cons, List.map_cons, List.sum_cons, ih]
    ring

lemma clw_foldl (chinese_font latin_font : FontMetrics) (font_size char_adjust : ℚ) :
    ∀ (segs : List (List Nat × Bool)) (a : ℚ),
      segs.foldl
        (fun total p =>
          if p.2 then total + chinese_font.text_length p.1 font_size
          else p.1.foldl
            (fun t letter =>
              t + (latin_font.text_length [letter] font_size + char_adjust)) total)
        a
      = a + (segs.map (seg_width chinese_font latin_font font_size char_adjust)).sum := by
  intro segs
  induction segs with
  | nil => intro a; simp
  | cons p ps ih =>
    intro a
    rw [List.foldl_cons]
    by_cases hp : p.2
    · rw [if_pos hp, ih, List.map_cons, List.sum_cons, seg_width, if_pos hp]
      ring
    · rw [if_neg hp,
        foldl_add_map (fun letter => latin_font.text_length [letter] font_size + char_adjust),
        ih, List.map_cons, List.sum_cons, seg_width, if_neg hp]
      ring

lemma compute_line_width_eq_sum (line : List Nat) (chinese_font latin_font : FontMetrics)
    (font_size char_adjust : ℚ) :
    compute_line_width line chinese_font latin_font font_size char_adjust =
      ((segment_text line).map (seg_width chinese_font latin_font font_size char_adjust)).sum := by
  unfold compute_line_width
  rw [clw_foldl]
  ring

lemma text_length_nil_of_additive (chinese_font : FontMetrics) (font_size : ℚ)
    (hadd : ∀ s t, chinese_font.text_length (s ++ t) font_size =
      chinese_font.text_length s font_size + chinese_font.text_length t font_size) :
    chinese_font.text_length [] font_size = 0 := by
  have h := hadd [] []
  simp at h
  linarith

lemma text_length_eq_sum_of_additive (chinese_font : FontMetrics) (font_size : ℚ)
    (hadd : ∀ s t, chinese_font.text_length (s ++ t) font_size =
      chinese_font.text_length s font_size + chinese_font.text_length t font_size) :
    ∀ s : List Nat,
      chinese_font.text_length s font_size =
        (s.map fun c => chinese_font.text_length [c] font_size).sum := by
  intro s
  induction s with
  | nil => simp [text_length_nil_of_additive chinese_font font_size hadd]
  | cons c cs ih =>
    have hcons : (c :: cs) = [c] ++ cs := rfl
    rw [hcons, hadd, ih]
    simp

lemma seg_width_eq_char_sum (chinese_font latin_font : FontMetrics)
    (font_size char_adjust : ℚ)
    (hadd : ∀ s t, chinese_font.text_length (s ++ t) font_size =
      chinese_font.text_length s font_size + chinese_font.text_length t font_size)
    (p : List Nat × Bool) (hp : ∀ c ∈ p.1, is_chinese c = p.2) :
    seg_width chinese_font latin_font font_size char_adjust p =
      (p.1.map (char_width chinese_font latin_font font_size char_adjust)).sum := by
  by_cases h2 : p.2
  · rw [seg_width, if_pos h2, text_length_eq_sum_of_additive chinese_font font_size hadd]
    refine congrArg List.sum (List.map_congr_left ?_)
    intro c hc
    rw [char_width, if_pos]
    rw [hp c hc, h2]
  · rw [seg_width, if_neg h2]
    refine congrArg List.sum (List.map_congr_left ?_)
    intro c hc
    rw [char_width, if_neg]
    intro hcc
    exact h2 (hp c hc ▸ hcc)

lemma compute_line_width_eq_char_sum (line : List Nat)
    (chinese_font latin_font : FontMetrics) (font_size char_adjust : ℚ)
    (hadd : ∀ s t, chinese_font.text_length (s ++ t) font_size =
      chinese_font.text_length s font_size + chinese_font.text_length t font_size) :
    compute_line_width line chinese_font latin_font font_size char_adjust =
      (line.map (char_width chinese_font latin_font font_size char_adjust)).sum := by
  rw [compute_line_width_eq_sum]
  have hsegs : (segment_text line).map
      (seg_width chinese_font latin_font font_size char_adjust) =
      (segment_text line).map
        (fun p => (p.1.map
          (char_width chinese_font latin_font font_size char_adjust)).sum) :=
    List.map_congr_left fun p hp =>
      seg_width_eq_char_sum chinese_font latin_font font_size char_adjust hadd p
        (segment_classes line p hp)
  rw [hsegs]
  conv_rhs => rw [← segment_join line]
  rw [List.map_flatten, List.sum_flatten, List.map_map, List.map_map]
  rfl

/-! ### Claim theorems: width measurement and color normalization -/

/-- Claim C3: `compute_line_width` equals the sum, over the line's runs, of
one whole-string wide-font measurement per WIDE run and the per-character
narrow width plus `char_adjust` per NARROW run; and on the line
`"Hello世界"` with narrow character width 5, wide character width 10 and
`char_adjust = -0.5` the result is `42.5`. -/
theorem measure_runs_and_hello_scenario :
    (∀ (line : List Nat) (chinese_font latin_font : FontMetrics)
        (font_size char_adjust : ℚ),
      compute_line_width line chinese_font latin_font font_size char_adjust =
        ((segment_text line).map
          (seg_width chinese_font latin_font font_size char_adjust)).sum) ∧
    compute_line_width [72, 101, 108, 108, 111, 0x4E16, 0x754C]
        (perCharFont 10) (perCharFont 5) 12 (-(1 / 2)) = 85 / 2 := by
  constructor
  · intro line chinese_font latin_font font_size char_adjust
    exact compute_line_width_eq_sum line chinese_font latin_font font_size char_adjust
  · norm_num [compute_line_width, segment_text, segment_aux, is_chinese, perCharFont,
      List.foldl]

/-- Claim C7 (counterexample): the well-formed numeric color string
`"300,0,0"` produces first component `300 / 255 > 1`, so the rendered color
components are not always in `[0, 1]`. -/
theorem color_component_above_one :
    1 < (normalize_color (some [300, 0, 0])).1 := by
  norm_num [normalize_color]

/-- Claim C7 (amended): for a three-component numeric color whose components
all lie in `[0, 255]`, the resulting triple has every component in `[0, 1]`:
when some component exceeds 1 all are divided by 255, when all are at most 1
they are used unchanged; a malformed color yields black `(0, 0, 0)`. -/
theorem normalize_color_bounds (r g b : ℚ) (hr0 : 0 ≤ r) (hr1 : r ≤ 255)
    (hg0 : 0 ≤ g) (hg1 : g ≤ 255) (hb0 : 0 ≤ b) (hb1 : b ≤ 255) :
    (0 ≤ (normalize_color (some [r, g, b])).1 ∧ (normalize_color (some [r, g, b])).1 ≤ 1) ∧
    (0 ≤ (normalize_color (some [r, g, b])).2.1 ∧
      (normalize_color (some [r, g, b])).2.1 ≤ 1) ∧
    (0 ≤ (normalize_color (some [r, g, b])).2.2 ∧
      (normalize_color (some [r, g, b])).2.2 ≤ 1) ∧
    ((1 < r ∨ 1 < g ∨ 1 < b) →
      normalize_color (some [r, g, b]) = (r / 255, g / 255, b / 255)) ∧
    ((r ≤ 1 ∧ g ≤ 1 ∧ b ≤ 1) → normalize_color (some [r, g, b]) = (r, g, b)) ∧
    normalize_color none = (0, 0, 0) := by
  by_cases h : 1 < r ∨ 1 < g ∨ 1 < b
  · have hval : normalize_color (some [r, g, b]) = (r / 255, g / 255, b / 255) := by
      simp only [normalize_color, if_pos h]
    rw [hval]
    refine ⟨⟨by positivity, ?_⟩, ⟨by positivity, ?_⟩, ⟨by positivity, ?_⟩,
      fun _ => rfl, fun hle => ?_, rfl⟩
    · rw [div_le_one (by norm_num : (0:ℚ) < 255)]; exact hr1
    · rw [div_le_one (by norm_num : (0:ℚ) < 255)]; exact hg1
    · rw [div_le_one (by norm_num : (0:ℚ) < 255)]; exact hb1
    · rcases h with h | h | h
      · exact absurd hle.1 (not_le.mpr h)
      · exact absurd hle.2.1 (not_le.mpr h)
      · exact absurd hle.2.2 (not_le.mpr h)
  · have h' : r ≤ 1 ∧ g ≤ 1 ∧ b ≤ 1 := by
      push_neg at h
      exact h
    have hval : normalize_color (some [r, g, b]) = (r, g, b) := by
      simp only [normalize_color, if_neg h]
    rw [hval]
    exact ⟨⟨hr0, h'.1⟩, ⟨hg0, h'.2.1⟩, ⟨hb0, h'.2.2⟩, fun hc => absurd hc h,
      fun _ => rfl, rfl⟩

/-- Witness for C7 at the concrete color `"255,0,0"`: the first component of
the normalized triple lies in `[0, 1]`. -/
theorem normalize_color_bounds_witness :
    0 ≤ (normalize_color (some [255, 0, 0])).1 ∧
      (normalize_color (some [255, 0, 0])).1 ≤ 1 :=
  (normalize_color_bounds 255 0 0 (by norm_num) (by norm_num) (by norm_num)
    (by norm_num) (by norm_num) (by norm_num)).1

/-! ### Line-splitter lemmas -/

lemma split_scan_le_length (chinese_font latin_font : FontMetrics)
    (font_size char_adjust allowed_width : ℚ) :
    ∀ (line : List Nat) (c : ℚ),
      split_scan chinese_font latin_font font_size char_adjust allowed_width line c ≤
        line.length := by
  intro line
  induction line with
  | nil => intro c; simp [split_scan]
  | cons ch rest ih =>
    intro c
    rw [split_scan]
    by_cases h : c + char_width chinese_font latin_font font_size char_adjust ch ≤
        allowed_width
    · rw [if_pos h]
      simpa using Nat.succ_le_succ (ih _)
    · rw [if_neg h]
      simp

lemma split_scan_fits (chinese_font latin_font : FontMetrics)
    (font_size char_adjust allowed_width : ℚ) :
    ∀ (line : List Nat) (c : ℚ) (j : Nat),
      1 ≤ j →
      j ≤ split_scan chinese_font latin_font font_size char_adjust allowed_width line c →
      c + ((line.take j).map
        (char_width chinese_font latin_font font_size char_adjust)).sum ≤ allowed_width := by
  intro line
  induction line with
  | nil =>
    intro c j h1 h2
    rw [split_scan] at h2
    omega
  | cons ch rest ih =>
    intro c j h1 h2
    rw [split_scan] at h2
    by_cases h : c + char_width chinese_font latin_font font_size char_adjust ch ≤
        allowed_width
    · rw [if_pos h] at h2
      obtain ⟨j', rfl⟩ : ∃ j', j = j' + 1 := ⟨j - 1, by omega⟩
      rcases Nat.eq_zero_or_pos j' with hj0 | hj1
      · subst hj0
        simpa using h
      · have h2' : j' ≤ split_scan chinese_font latin_font font_size char_adjust
            allowed_width rest
            (c + char_width chinese_font latin_font font_size char_adjust ch) := by
          omega
        have hrec := ih (c + char_width chinese_font latin_font font_size char_adjust ch)
          j' hj1 h2'
        rw [List.take_succ_cons, List.map_cons, List.sum_cons]
        linarith
    · rw [if_neg h] at h2
      omega

lemma split_scan_stop (chinese_font latin_font : FontMetrics)
    (font_size char_adjust allowed_width : ℚ) :
    ∀ (line : List Nat) (c : ℚ),
      split_scan chinese_font latin_font font_size char_adjust allowed_width line c =
        line.length ∨
      allowed_width < c + ((line.take
        (split_scan chinese_font latin_font font_size char_adjust allowed_width line c + 1)).map
        (char_width chinese_font latin_font font_size char_adjust)).sum := by
  intro line
  induction line with
  | nil =>
    intro c
    left
    rw [split_scan]
    rfl
  | cons ch rest ih =>
    intro c
    rw [split_scan]
    by_cases h : c + char_width chinese_font latin_font font_size char_adjust ch ≤
        allowed_width
    · rw [if_pos h]
      rcases ih (c + char_width chinese_font latin_font font_size char_adjust ch)
        with hl | hr
      · left
        simp [hl]
      · right
        rw [List.take_succ_cons, List.map_cons, List.sum_cons]
        linarith
    · rw [if_neg h]
      right
      rw [List.take_succ_cons, List.take_zero, List.map_cons, List.map_nil,
        List.sum_cons, List.sum_nil]
      linarith [not_le.mp h]

lemma take_length_take (l : List Nat) (k : Nat) :
    l.take ((l.take k).length) = l.take k := by
  rw [List.length_take, ← List.take_take, List.take_length]

lemma split_index_pos (line : List Nat) (allowed_width : ℚ)
    (chinese_font latin_font : FontMetrics) (font_size char_adjust : ℚ) :
    1 ≤ split_index_of line allowed_width chinese_font latin_font font_size char_adjust := by
  rw [split_index_of]
  split_ifs with h
  · exact le_refl 1
  · omega

/-! ### Claim theorems: line splitting -/

/-- Claim C1 (counterexample): with every character 2 units wide and
`allowed_width = 1`, the maximal prefix of the line `"A"` whose accumulated
width stays within the allowed width is empty, yet `split_text_line` returns
the one-character prefix, whose accumulated width exceeds the allowed
width. -/
theorem split_forced_prefix_exceeds_allowed :
    (split_text_line [65] 1 (constantFont 2) (constantFont 2) 12 0).1 = [65] ∧
    ¬ cum_width (constantFont 2) (constantFont 2) 12 0 [65] 1 ≤ 1 := by
  constructor
  · norm_num [split_text_line, split_index_of, split_scan, char_width, is_chinese,
      constantFont]
  · norm_num [cum_width, char_width, is_chinese, constantFont]

/-- Claim C1 (amended): for a non-empty line and `allowed_width ≥ 0` the
returned first part is a prefix of the line and either it is the maximal
greedy prefix — every running per-character sum up to its length stays
within the allowed width, and it is the whole line or the next character
would exceed the width — or no character fitted and the prefix is forced to
the single first character, whose width alone already exceeds the allowed
width. -/
theorem split_prefix_greedy_maximal (line : List Nat) (allowed_width : ℚ)
    (chinese_font latin_font : FontMetrics) (font_size char_adjust : ℚ)
    (hne : line ≠ []) (haw : 0 ≤ allowed_width) :
    (split_text_line line allowed_width chinese_font latin_font font_size char_adjust).1 =
      line.take (split_text_line line allowed_width chinese_font latin_font font_size
        char_adjust).1.length ∧
    (((∀ j ≤ (split_text_line line allowed_width chinese_font latin_font font_size
          char_adjust).1.length,
        cum_width chinese_font latin_font font_size char_adjust line j ≤ allowed_width) ∧
      ((split_text_line line allowed_width chinese_font latin_font font_size
          char_adjust).1.length = line.length ∨
        allowed_width < cum_width chinese_font latin_font font_size char_adjust line
          ((split_text_line line allowed_width chinese_font latin_font font_size
            char_adjust).1.length + 1))) ∨
    ((split_text_line line allowed_width chinese_font latin_font font_size
        char_adjust).1.length = 1 ∧
      allowed_width < cum_width chinese_font latin_font font_size char_adjust line 1)) := by
  have hlen : 0 < line.length := List.length_pos.mpr hne
  have hfst : (split_text_line line allowed_width chinese_font latin_font font_size
      char_adjust).1 =
      line.take (split_index_of line allowed_width chinese_font latin_font font_size
        char_adjust) := rfl
  constructor
  · rw [hfst, take_length_take]
  · by_cases h0 : split_scan chinese_font latin_font font_size char_adjust allowed_width
        line 0 = 0
    · right
      have hsi : split_index_of line allowed_width chinese_font latin_font font_size
          char_adjust = 1 := by
        rw [split_index_of, if_pos h0]
      have hlen1 : (split_text_line line allowed_width chinese_font latin_font font_size
          char_adjust).1.length = 1 := by
        rw [hfst, hsi, List.length_take]
        omega
      refine ⟨hlen1, ?_⟩
      rcases split_scan_stop chinese_font latin_font font_size char_adjust allowed_width
        line 0 with hl | hr
      · omega
      · rw [h0] at hr
        rw [cum_width]
        linarith
    · left
      have hsi : split_index_of line allowed_width chinese_font latin_font font_size
          char_adjust =
          split_scan chinese_font latin_font font_size char_adjust allowed_width line 0 := by
        rw [split_index_of, if_neg h0]
      have hscanle := split_scan_le_length chinese_font latin_font font_size char_adjust
        allowed_width line 0
      have hlenk : (split_text_line line allowed_width chinese_font latin_font font_size
          char_adjust).1.length =
          split_scan chinese_font latin_font font_size char_adjust allowed_width line 0 := by
        rw [hfst, hsi, List.length_take]
        omega
      rw [hlenk]
      constructor
      · intro j hj
        rcases Nat.eq_zero_or_pos j with hj0 | hj1
        · subst hj0
          simpa [cum_width] using haw
        · have := split_scan_fits chinese_font latin_font font_size char_adjust
            allowed_width line 0 j hj1 hj
          rw [cum_width]
          linarith
      · rcases split_scan_stop chinese_font latin_font font_size char_adjust allowed_width
          line 0 with hl | hr
        · exact Or.inl hl
        · right
          rw [cum_width]
          linarith

/-- Witness for C1: with every character 2 units wide and allowed width 3,
the split of `"AB"` returns a genuine prefix of the line. -/
theorem split_prefix_greedy_maximal_witness :
    (split_text_line [65, 66] 3 (constantFont 2) (constantFont 2) 12 0).1 =
      [65, 66].take (split_text_line [65, 66] 3 (constantFont 2) (constantFont 2) 12
        0).1.length :=
  (split_prefix_greedy_maximal [65, 66] 3 (constantFont 2) (constantFont 2) 12 0
    (by decide) (by norm_num)).1

/-- Claim C4: for a non-empty line and `allowed_width ≥ 0`, the split prefix
is non-empty, the lengths of prefix and suffix sum to the line length, and
when even the first character's width alone exceeds the allowed width the
prefix is forced to exactly the first character. -/
theorem split_parts_nonempty_cover (line : List Nat) (allowed_width : ℚ)
    (chinese_font latin_font : FontMetrics) (font_size char_adjust : ℚ)
    (hne : line ≠ []) (haw : 0 ≤ allowed_width) :
    (split_text_line line allowed_width chinese_font latin_font font_size char_adjust).1 ≠
      [] ∧
    (split_text_line line allowed_width chinese_font latin_font font_size
        char_adjust).1.length +
      (split_text_line line allowed_width chinese_font latin_font font_size
        char_adjust).2.length = line.length ∧
    (allowed_width < cum_width chinese_font latin_font font_size char_adjust line 1 →
      (split_text_line line allowed_width chinese_font latin_font font_size char_adjust).1 =
        line.take 1) := by
  have hpos := split_index_pos line allowed_width chinese_font latin_font font_size
    char_adjust
  refine ⟨?_, ?_, ?_⟩
  · rw [split_text_line]
    intro hnil
    rcases List.take_eq_nil_iff.mp hnil with h | h
    · omega
    · exact hne h
  · show (line.take _).length + (line.drop _).length = line.length
    rw [← List.length_append, List.take_append_drop]
  · intro hover
    obtain ⟨ch, rest, rfl⟩ : ∃ ch rest, line = ch :: rest := by
      cases line with
      | nil => exact absurd rfl hne
      | cons ch rest => exact ⟨ch, rest, rfl⟩
    have hw : ¬ (0 + char_width chinese_font latin_font font_size char_adjust ch ≤
        allowed_width) := by
      rw [cum_width, List.take_succ_cons, List.take_zero, List.map_cons, List.map_nil,
        List.sum_cons, List.sum_nil] at hover
      intro hc
      linarith
    have h0 : split_scan chinese_font latin_font font_size char_adjust allowed_width
        (ch :: rest) 0 = 0 := by
      rw [split_scan, if_neg hw]
    rw [split_text_line, split_index_of, if_pos h0]

/-- Witness for C4: the split of `"A"` at allowed width 1 with character
width 2 still returns a non-empty prefix. -/
theorem split_parts_nonempty_cover_witness :
    (split_text_line [65] 1 (constantFont 2) (constantFont 2) 12 0).1 ≠ [] :=
  (split_parts_nonempty_cover [65] 1 (constantFont 2) (constantFont 2) 12 0
    (by decide) (by norm_num)).1

/-! ### Claim theorems: measure monotonicity of the split prefix -/

/-- Claim C8 (counterexample): with a metrics provider for which the single
character `0x4E16` measures wider alone (100) than inside the whole run
(batch width 5), the line `"世界"` overflows the allowed width 4, yet the
split prefix measures strictly wider than the whole line — so
`measure(prefix) ≤ measure(line)` fails for an arbitrary metrics
provider. -/
theorem measure_prefix_can_exceed_measure_line :
    (4 : ℚ) < compute_line_width [0x4E16, 0x754C] spikyFont (constantFont 5) 12
      (-(1 / 2)) ∧
    compute_line_width [0x4E16, 0x754C] spikyFont (constantFont 5) 12 (-(1 / 2)) <
      compute_line_width
        ((split_text_line [0x4E16, 0x754C] 4 spikyFont (constantFont 5) 12 (-(1 / 2))).1)
        spikyFont (constantFont 5) 12 (-(1 / 2)) := by
  constructor
  · norm_num [compute_line_width, segment_text, segment_aux, is_chinese, spikyFont,
      List.foldl]
  · norm_num [compute_line_width, segment_text, segment_aux, is_chinese, spikyFont,
      constantFont, split_text_line, split_index_of, split_scan, char_width, List.foldl]

/-- Claim C8 (amended): when the wide metrics provider is additive over
concatenation and every per-character width (wide, and narrow plus
`char_adjust`) is nonnegative, the split prefix of a line that overflows the
allowed width measures at most the whole line. -/
theorem measure_prefix_le_of_additive (line : List Nat) (allowed_width : ℚ)
    (chinese_font latin_font : FontMetrics) (font_size char_adjust : ℚ)
    (hadd : ∀ s t, chinese_font.text_length (s ++ t) font_size =
      chinese_font.text_length s font_size + chinese_font.text_length t font_size)
    (hwide : ∀ c, 0 ≤ chinese_font.text_length [c] font_size)
    (hnarrow : ∀ c, 0 ≤ latin_font.text_length [c] font_size + char_adjust)
    (hover : allowed_width <
      compute_line_width line chinese_font latin_font font_size char_adjust) :
    compute_line_width
        ((split_text_line line allowed_width chinese_font latin_font font_size
          char_adjust).1) chinese_font latin_font font_size char_adjust ≤
      compute_line_width line chinese_font latin_font font_size char_adjust := by
  have hcw : ∀ c, 0 ≤ char_width chinese_font latin_font font_size char_adjust c := by
    intro c
    rw [char_width]
    split_ifs
    · exact hwide c
    · exact hnarrow c
  rw [compute_line_width_eq_char_sum _ _ _ _ _ hadd,
    compute_line_width_eq_char_sum _ _ _ _ _ hadd]
  have hfst : (split_text_line line allowed_width chinese_font latin_font font_size
      char_adjust).1 =
      line.take (split_index_of line allowed_width chinese_font latin_font font_size
        char_adjust) := rfl
  rw [hfst]
  conv_rhs =>
    rw [← List.take_append_drop
      (split_index_of line allowed_width chinese_font latin_font font_size char_adjust)
      line]
  rw [List.map_append, List.sum_append]
  have hdrop : 0 ≤ ((line.drop (split_index_of line allowed_width chinese_font latin_font
      font_size char_adjust)).map
      (char_width chinese_font latin_font font_size char_adjust)).sum := by
    refine List.sum_nonneg ?_
    intro x hx
    obtain ⟨c, _, rfl⟩ := List.mem_map.mp hx
    exact hcw c
  linarith

/-- Witness for C8 with additive per-character metrics (wide width 10,
narrow width 5, `char_adjust = -0.5`): the line `"H"` overflows allowed
width 1 and its split prefix measures at most the line. -/
theorem measure_prefix_le_of_additive_witness :
    compute_line_width
        ((split_text_line [72] 1 (perCharFont 10) (perCharFont 5) 12 (-(1 / 2))).1)
        (perCharFont 10) (perCharFont 5) 12 (-(1 / 2)) ≤
      compute_line_width [72] (perCharFont 10) (perCharFont 5) 12 (-(1 / 2)) :=
  measure_prefix_le_of_additive [72] 1 (perCharFont 10) (perCharFont 5) 12 (-(1 / 2))
    (by
      intro s t
      simp [perCharFont, List.length_append]
      ring)
    (by intro c; norm_num [perCharFont])
    (by intro c; norm_num [perCharFont])
    (by norm_num [compute_line_width, segment_text, segment_aux, is_chinese, perCharFont,
      List.foldl])

/-! ### Claim theorems: page mapping -/

/-- Claim C9: exactly `min(len(lines), page_count)` line-to-page assignments
are produced, pairing line `i` with 0-based page `i`; the bookmark list has
one entry per assignment in page order, each with level 1, the line's
content as title, and 1-based page number `i + 1`. -/
theorem map_pages_assignments_bookmarks (lines : List (List Nat)) (page_count : Nat) :
    (map_pages lines page_count).1.length = min lines.length page_count ∧
    (map_pages lines page_count).2.length = min lines.length page_count ∧
    ∀ i, i < min lines.length page_count →
      (map_pages lines page_count).1.getD i ([], 0) = (lines.getD i [], i) ∧
      (map_pages lines page_count).2.getD i (0, [], 0) = (1, lines.getD i [], i + 1) := by
  refine ⟨?_, ?_, ?_⟩
  · simp [map_pages]
  · simp [map_pages]
  · intro i hi
    constructor
    · simp [map_pages, List.getD_eq_getElem?_getD, List.getElem?_map,
        List.getElem?_range hi]
    · simp [map_pages, List.getD_eq_getElem?_getD, List.getElem?_map,
        List.getElem?_range hi]

/-- Witness for C9 at the scenario of 3 input lines and a 5-page document:
the third bookmark is `(1, line2, 3)`. -/
theorem map_pages_assignments_bookmarks_witness :
    (map_pages [[65], [66], [67]] 5).2.getD 2 (0, [], 0) = (1, [67], 3) :=
  ((map_pages_assignments_bookmarks [[65], [66], [67]] 5).2.2 2 (by norm_num)).2

end SpectrumMark
